import Mathlib

/-!
Shallow embedding of the orion cryptographic primitives library
(src/hazardous/hkdf.rs, src/hazardous/cshake.rs, src/core/util.rs).

Bytes are modelled as `Nat` values kept below 256 by construction
(`% 256` where the Rust code casts or wraps).  Fallible Rust functions
returning `Result<_, UnknownCryptoError>` become `Except Unit _`;
a Rust panic (`unwrap` of an `Err`, or the `panic!` arm of
`Hkdf::max_okmlen`) is modelled as `none` in an outer `Option`.

The hash compression functions (the `sha2` crate) and the Keccak
permutation (the `tiny_keccak` crate) are external black boxes; they are
threaded through as function parameters.  `hazardous/hmac.rs` and
`core/options.rs` are part of this repository but are not present under
`src/`; the definitions taken from them are modelled from the spec and
marked as such in their doc comments.
-/

namespace Orion

/-- Modelled from the spec: the hash-variant selector of `core/options.rs`
(not under src/): a closed enum of three SHA-2 variants. -/
inductive ShaVariantOption
  | SHA256
  | SHA384
  | SHA512
deriving DecidableEq, Repr

/-- Modelled from the spec: output size in bytes (`hLen`) of each variant. -/
def ShaVariantOption.output_size : ShaVariantOption → Nat
  | .SHA256 => 32
  | .SHA384 => 48
  | .SHA512 => 64

/-- Modelled from the spec: the internal block size of each hash variant,
used by HMAC key padding (SHA-256 has 64-byte blocks, SHA-384/512 have
128-byte blocks). -/
def ShaVariantOption.block_size : ShaVariantOption → Nat
  | .SHA256 => 64
  | .SHA384 => 128
  | .SHA512 => 128

/-- The family of hash digest functions, one per variant: a black-box
`digest(message) -> bytes` primitive per the boundary contract of the spec. -/
def HashFam : Type := ShaVariantOption → List Nat → List Nat

/-- Modelled from the spec: the keccak-variant selector of
`core/options.rs` (not under src/). -/
inductive KeccakVariantOption
  | KECCAK256
  | KECCAK512
deriving DecidableEq, Repr

/-- Modelled from the spec: the HMAC parameter record of
`hazardous/hmac.rs` (not under src/). -/
structure Hmac where
  secret_key : List Nat
  data : List Nat
  sha2 : ShaVariantOption

/-- Modelled from the spec: HMAC key block-size adjustment — the key is
hashed down if longer than the block size, then zero-padded up to the
block size. -/
def padKey (hash : HashFam) (v : ShaVariantOption) (key : List Nat) : List Nat :=
  let k := if v.block_size < key.length then hash v key else key
  k ++ List.replicate (v.block_size - k.length) 0

/-- Modelled from the spec: the HMAC computation of `hazardous/hmac.rs`
(not under src/) — inner hash over (key xor ipad) ++ message, outer hash
over (key xor opad) ++ inner digest, with the standard pad constants
0x36 and 0x5c. -/
def Hmac.finalize (hash : HashFam) (m : Hmac) : List Nat :=
  let k0 := padKey hash m.sha2 m.secret_key
  hash m.sha2 ((k0.map (fun b => b ^^^ 0x5c)) ++ hash m.sha2 ((k0.map (fun b => b ^^^ 0x36)) ++ m.data))

/-- HMAC as a keyed function: key in the `secret_key` slot, message in the
`data` slot. -/
def hmacOf (hash : HashFam) (v : ShaVariantOption) (key msg : List Nat) : List Nat :=
  Hmac.finalize hash (Hmac.mk key msg v)

/-- The HKDF parameter record (hkdf.rs lines 32-38). -/
structure Hkdf where
  salt : List Nat
  ikm : List Nat
  info : List Nat
  length : Nat
  hmac : ShaVariantOption

/-- Model of `Clear::clear` from the `clear_on_drop` crate (external): overwrite the
buffer with zero bytes. -/
def clearBuf (v : List Nat) : List Nat := List.replicate v.length 0

/-- Model of `Drop for Hkdf` (hkdf.rs lines 40-46): clears `salt`, `ikm`, `info`. -/
def Hkdf.dropZeroize (c : Hkdf) : Hkdf :=
  { c with salt := clearBuf c.salt, ikm := clearBuf c.ikm, info := clearBuf c.info }

/-- Model of `Hkdf::max_okmlen` (hkdf.rs lines 116-123); the `_ => panic!` arm is
modelled as `none`. -/
def Hkdf.max_okmlen (c : Hkdf) : Option Nat :=
  match c.hmac.output_size with
  | 32 => some 8160
  | 48 => some 12240
  | 64 => some 16320
  | _ => none

/-- Model of `Hkdf::extract` (hkdf.rs lines 126-134): builds an `Hmac` record with
`secret_key := salt`, `data := ikm` and finalizes it. -/
def Hkdf.extract (hash : HashFam) (c : Hkdf) (salt ikm : List Nat) : List Nat :=
  Hmac.finalize hash (Hmac.mk salt ikm c.hmac)

/-- The `for index in 1..n_iter+1` loop body of `Hkdf::expand`
(hkdf.rs lines 151-161), iterated over an explicit list of index values.
State is `(con_step, okm)`; `index as u8` is `i % 256`. -/
def Hkdf.expandLoop (hash : HashFam) (c : Hkdf) (prk : List Nat) :
    List Nat → List Nat × List Nat → List Nat × List Nat
  | [], st => st
  | i :: rest, st =>
      let con2 := c.extract hash prk (st.1 ++ c.info ++ [i % 256])
      Hkdf.expandLoop hash c prk rest (con2, st.2 ++ con2)

/-- Model of `Hkdf::expand` (hkdf.rs lines 137-166).  A `panic!` escaping from
`max_okmlen` is `none`; the two length guards return the error;
otherwise `n_iter = 1 + (length - 1) / output_size` loop iterations run
and the concatenated output is truncated to `length` bytes. -/
def Hkdf.expand (hash : HashFam) (c : Hkdf) (prk : List Nat) :
    Option (Except Unit (List Nat)) :=
  match c.max_okmlen with
  | none => none
  | some maxLen =>
    if maxLen < c.length then some (Except.error ()) else
    if c.length < 1 then some (Except.error ()) else
    let n_iter := 1 + (c.length - 1) / c.hmac.output_size
    let st := Hkdf.expandLoop hash c prk ((List.range n_iter).map (fun j => j + 1)) ([], [])
    some (Except.ok (st.2.take c.length))

/-- Model of `Hkdf::derive_key` (hkdf.rs lines 169-177) with the intermediate
`prk` buffer made explicit: returns the result together with the final
contents of the `prk` buffer (cleared before returning on every path). -/
def Hkdf.derive_key_traced (hash : HashFam) (c : Hkdf) :
    Option (Except Unit (List Nat)) × List Nat :=
  let prk := c.extract hash c.salt c.ikm
  let dk := c.expand hash prk
  (dk, clearBuf prk)

/-- The returned value of `Hkdf::derive_key`. -/
def Hkdf.derive_key (hash : HashFam) (c : Hkdf) : Option (Except Unit (List Nat)) :=
  (c.derive_key_traced hash).1

/-- Model of `constant_time_eq` (external crate): black-box contract is byte-slice
equality. -/
def constant_time_eq (a b : List Nat) : Bool := a == b

/-- Model of `compare_ct` (core/util.rs lines 44-54). -/
def compare_ct (a b : List Nat) : Except Unit Bool :=
  if a.length ≠ b.length then Except.error ()
  else if constant_time_eq a b then Except.ok true
  else Except.error ()

/-- Model of `Hkdf::verify` (hkdf.rs lines 182-190).  The source calls
`self.derive_key().unwrap()`: an `Err` from `derive_key` makes `unwrap`
panic, modelled as `none`. -/
def Hkdf.verify (hash : HashFam) (c : Hkdf) (expected_dk : List Nat) :
    Option (Except Unit Bool) :=
  match c.derive_key hash with
  | none => none
  | some (Except.error _) => none
  | some (Except.ok own_dk) =>
      if (compare_ct own_dk expected_dk).isOk then some (Except.ok true)
      else some (Except.error ())

/-- Model of `byte_tools::write_u64_be` (external crate): the eight big-endian
bytes of a 64-bit value, written explicitly.  On the little-endian
targets the crate documents, `x.to_le()` at the call site is the
identity. -/
def writeU64BE (x : Nat) : List Nat :=
  [x / 256 ^ 7 % 256, x / 256 ^ 6 % 256, x / 256 ^ 5 % 256, x / 256 ^ 4 % 256,
   x / 256 ^ 3 % 256, x / 256 ^ 2 % 256, x / 256 % 256, x % 256]

/-- The `for idx in &input { if *idx != 0 { break; } offset += 1; }` scan
of `left_encode` (cshake.rs lines 186-191): counts leading zero bytes. -/
def leadingZeros : List Nat → Nat
  | [] => 0
  | b :: rest => if b = 0 then leadingZeros rest + 1 else 0

/-- Model of `left_encode` (cshake.rs lines 178-197): a 9-byte buffer whose tail
holds the big-endian bytes of `x`; `offset` is 8 for `x = 0`, otherwise
the number of leading zero bytes; byte `offset - 1` is overwritten with
`9 - offset` and the result is the suffix from there. -/
def left_encode (x : Nat) : List Nat :=
  let input := 0 :: writeU64BE x
  let offset := if x = 0 then 8 else leadingZeros input
  let input2 := input.set (offset - 1) (9 - offset)
  input2.drop (offset - 1)

/-- The `tiny_keccak` sponge, as the black box described at the boundary of the spec: the rate, the domain-separation delimiter, and the byte
stream absorbed so far. -/
structure Keccak where
  rate : Nat
  delim : Nat
  absorbed : List Nat
deriving DecidableEq, Repr

/-- Model of `Keccak::new(rate, delim)` (external crate): fresh sponge state. -/
def Keccak.new (rate delim : Nat) : Keccak := Keccak.mk rate delim []

/-- Model of `Keccak::update` (external crate): absorb bytes. -/
def Keccak.update (s : Keccak) (data : List Nat) : Keccak :=
  { s with absorbed := s.absorbed ++ data }

/-- Model of `Keccak::fill_block` (external crate, per the boundary contract of the spec): zero-pad the absorbed stream to the next multiple of the
rate. -/
def Keccak.fill_block (s : Keccak) : Keccak :=
  { s with absorbed :=
      s.absorbed ++ List.replicate ((s.rate - s.absorbed.length % s.rate) % s.rate) 0 }

/-- Finalization inside the sponge (`pad()`, `keccakf()` and `squeeze()`
inside `Keccak::finalize`): a black-box function from the final state
and the output length to the squeezed bytes. -/
def SqueezeFun : Type := Keccak → Nat → List Nat

/-- The cSHAKE parameter record (cshake.rs lines 33-39). -/
structure CShake where
  input : List Nat
  name : List Nat
  custom : List Nat
  length : Nat
  keccak : KeccakVariantOption

/-- Model of `Drop for CShake` (cshake.rs lines 41-46): clears `input` and
`custom` (the NIST-defined `name` is not secret and is not cleared). -/
def CShake.dropZeroize (c : CShake) : CShake :=
  { c with input := clearBuf c.input, custom := clearBuf c.custom }

/-- Model of `CShake::rate` (cshake.rs lines 107-112). -/
def CShake.rate (c : CShake) : Nat :=
  match c.keccak with
  | .KECCAK256 => 168
  | .KECCAK512 => 136

/-- Model of `CShake::keccak_init` (cshake.rs lines 115-120): both variants build
`Keccak::new(rate, 0x04)`. -/
def CShake.keccak_init (c : CShake) : Keccak :=
  match c.keccak with
  | .KECCAK256 => Keccak.new c.rate 0x04
  | .KECCAK512 => Keccak.new c.rate 0x04

/-- Model of `CShake::keccak_finalize` (cshake.rs lines 123-129): absorb the main
input, then pad, permute and squeeze `length` bytes. -/
def CShake.keccak_finalize (squeeze : SqueezeFun) (c : CShake) (state : Keccak) : List Nat :=
  squeeze (state.update c.input) c.length

/-- Model of `CShake::finalize` (cshake.rs lines 132-161).  The three guards
return the error; otherwise the cSHAKE prefix is absorbed — the
left-encoded rate, then the left-encoded bit lengths with `name` and
`custom` (bit lengths computed in u64, hence `% 2 ^ 64`) — the block is
zero-filled, and the sponge is finalized. -/
def CShake.finalize (squeeze : SqueezeFun) (c : CShake) : Except Unit (List Nat) :=
  if c.name = [] ∧ c.custom = [] then Except.error () else
  if c.length = 0 ∨ 65536 < c.length then Except.error () else
  if 65536 < c.name.length ∨ 65536 < c.custom.length then Except.error () else
  let s0 := c.keccak_init
  let s1 := s0.update (left_encode c.rate)
  let s2 := (s1.update (left_encode (c.name.length * 8 % 2 ^ 64))).update c.name
  let s3 := (s2.update (left_encode (c.custom.length * 8 % 2 ^ 64))).update c.custom
  let s4 := s3.fill_block
  Except.ok (c.keccak_finalize squeeze s4)

/-- Model of `CShake::verify` (cshake.rs lines 166-174).  The source calls
`self.finalize().unwrap()`: an `Err` from `finalize` makes `unwrap`
panic, modelled as `none`. -/
def CShake.verify (squeeze : SqueezeFun) (c : CShake) (input : List Nat) :
    Option (Except Unit Bool) :=
  match c.finalize squeeze with
  | Except.error _ => none
  | Except.ok own_hash =>
      if (compare_ct own_hash input).isOk then some (Except.ok true)
      else some (Except.error ())

/-! Spec-side definitions, written from the words of the spec, to be compared
with the embedded code. -/

/-- Spec: the numeric value of a big-endian byte string. -/
def beVal (l : List Nat) : Nat := l.foldl (fun acc b => acc * 256 + b) 0

/-- Spec: `l` is the minimal big-endian byte representation of `x` —
all entries are bytes, the value is `x`, zero encodes as the single byte
`0x00`, and otherwise there is no leading zero. -/
def IsMinimalBE (x : Nat) (l : List Nat) : Prop :=
  (∀ b ∈ l, b < 256) ∧ beVal l = x ∧
    (if x = 0 then l = [0] else l ≠ [] ∧ l.head? ≠ some 0)

instance (x : Nat) (l : List Nat) : Decidable (IsMinimalBE x l) := by
  unfold IsMinimalBE; infer_instance

/-- Spec: HKDF expand block `i` — block 0 is empty, block `i+1` is
`HMAC(key = prk, message = block i ++ info ++ [i+1])`. -/
def hkdfBlockSpec (hash : HashFam) (v : ShaVariantOption) (prk info : List Nat) :
    Nat → List Nat
  | 0 => []
  | i + 1 => hmacOf hash v prk (hkdfBlockSpec hash v prk info i ++ info ++ [i + 1])

/-- Spec: HKDF expand output — blocks `1 .. ceil(length / hLen)`
concatenated and truncated to exactly `length` bytes. -/
def hkdfOkmSpec (hash : HashFam) (v : ShaVariantOption) (prk info : List Nat)
    (len : Nat) : List Nat :=
  (((List.range ((len + v.output_size - 1) / v.output_size)).map
      (fun j => hkdfBlockSpec hash v prk info (j + 1))).flatten).take len

/-- Spec: the byte stream a valid cSHAKE finalize absorbs, in order —
`left_encode(rate)`, `left_encode(8 * |name|) ++ name`,
`left_encode(8 * |custom|) ++ custom`, zero-padding of that prefix to a
full rate-sized block, then the main input verbatim. -/
def cshakeAbsorbedSpec (c : CShake) : List Nat :=
  let pre := left_encode c.rate ++
    left_encode (8 * c.name.length) ++ c.name ++
    left_encode (8 * c.custom.length) ++ c.custom
  pre ++ List.replicate ((c.rate - pre.length % c.rate) % c.rate) 0 ++ c.input

instance {ε α : Type} [DecidableEq ε] [DecidableEq α] : DecidableEq (Except ε α) := by
  intro a b
  cases a <;> cases b
  case error.error e f =>
    exact if h : e = f then isTrue (by rw [h]) else isFalse (by simp [h])
  case error.ok _ _ => exact isFalse (by simp)
  case ok.error _ _ => exact isFalse (by simp)
  case ok.ok x y =>
    exact if h : x = y then isTrue (by rw [h]) else isFalse (by simp [h])

/-! Helper lemmas. -/

theorem output_size_pos (v : ShaVariantOption) : 0 < v.output_size := by
  cases v <;> simp [ShaVariantOption.output_size]

theorem max_okmlen_eq (c : Hkdf) : c.max_okmlen = some (255 * c.hmac.output_size) := by
  cases h : c.hmac <;> simp [Hkdf.max_okmlen, ShaVariantOption.output_size, h]

theorem hmac_finalize_length (hash : HashFam)
    (hlen : ∀ v m, (hash v m).length = ShaVariantOption.output_size v) (m : Hmac) :
    (m.finalize hash).length = m.sha2.output_size := by
  simp [Hmac.finalize, hlen]

theorem hkdfBlockSpec_length (hash : HashFam)
    (hlen : ∀ v m, (hash v m).length = ShaVariantOption.output_size v)
    (v : ShaVariantOption) (prk info : List Nat) (i : Nat) :
    (hkdfBlockSpec hash v prk info (i + 1)).length = v.output_size := by
  simp [hkdfBlockSpec, hmacOf, hmac_finalize_length hash hlen]

theorem expandLoop_append (hash : HashFam) (c : Hkdf) (prk : List Nat)
    (l1 l2 : List Nat) (st : List Nat × List Nat) :
    Hkdf.expandLoop hash c prk (l1 ++ l2) st =
      Hkdf.expandLoop hash c prk l2 (Hkdf.expandLoop hash c prk l1 st) := by
  induction l1 generalizing st with
  | nil => rfl
  | cons i rest ih => simp [Hkdf.expandLoop, ih]

theorem expandLoop_blocks (hash : HashFam) (c : Hkdf) (prk : List Nat)
    (k : Nat) (hk : k ≤ 255) :
    Hkdf.expandLoop hash c prk ((List.range k).map (fun j => j + 1)) ([], []) =
      (hkdfBlockSpec hash c.hmac prk c.info k,
       ((List.range k).map (fun j => hkdfBlockSpec hash c.hmac prk c.info (j + 1))).flatten) := by
  induction k with
  | zero => rfl
  | succ n ih =>
      have hn : n ≤ 255 := Nat.le_of_succ_le hk
      have hmod : (n + 1) % 256 = n + 1 := Nat.mod_eq_of_lt (by omega)
      rw [List.range_succ, List.map_append, expandLoop_append, ih hn]
      simp [Hkdf.expandLoop, Hkdf.extract, hmacOf, hkdfBlockSpec, hmod]

theorem n_iter_eq_ceil (len h : Nat) (h1 : 1 ≤ len) (h0 : 0 < h) :
    (len + h - 1) / h = 1 + (len - 1) / h := by
  have : len + h - 1 = (len - 1) + h := by omega
  rw [this, Nat.add_div_right _ h0, Nat.add_comm]

theorem expand_eq_spec (hash : HashFam) (c : Hkdf) (prk : List Nat)
    (h1 : 1 ≤ c.length) (h2 : c.length ≤ 255 * c.hmac.output_size) :
    c.expand hash prk =
      some (Except.ok (hkdfOkmSpec hash c.hmac prk c.info c.length)) := by
  have h0 : 0 < c.hmac.output_size := output_size_pos c.hmac
  have hng : ¬ (255 * c.hmac.output_size < c.length) := not_lt.mpr h2
  have hng2 : ¬ (c.length < 1) := not_lt.mpr h1
  have hiter : 1 + (c.length - 1) / c.hmac.output_size ≤ 255 := by
    have : (c.length - 1) / c.hmac.output_size < 255 :=
      (Nat.div_lt_iff_lt_mul h0).mpr (by omega)
    omega
  rw [Hkdf.expand, max_okmlen_eq]
  simp only [hng, if_false, hng2]
  rw [expandLoop_blocks hash c prk _ hiter]
  rw [hkdfOkmSpec, n_iter_eq_ceil c.length c.hmac.output_size h1 h0]

theorem okmSpec_length (hash : HashFam)
    (hlen : ∀ v m, (hash v m).length = ShaVariantOption.output_size v)
    (v : ShaVariantOption) (prk info : List Nat) (len : Nat) (h1 : 1 ≤ len) :
    (hkdfOkmSpec hash v prk info len).length = len := by
  have h0 : 0 < v.output_size := output_size_pos v
  rw [hkdfOkmSpec, List.length_take]
  have hmapl : ((List.range ((len + v.output_size - 1) / v.output_size)).map
      (fun j => hkdfBlockSpec hash v prk info (j + 1))).flatten.length =
      ((len + v.output_size - 1) / v.output_size) * v.output_size := by
    rw [List.length_flatten, List.map_map]
    have : ((List.range ((len + v.output_size - 1) / v.output_size)).map
        (List.length ∘ fun j => hkdfBlockSpec hash v prk info (j + 1))) =
        List.replicate ((len + v.output_size - 1) / v.output_size) v.output_size := by
      refine List.eq_replicate_iff.mpr ⟨by simp, ?_⟩
      intro b hb
      rcases List.mem_map.mp hb with ⟨j, _, hj⟩
      rw [← hj]
      exact hkdfBlockSpec_length hash hlen v prk info j
    rw [this, List.sum_replicate, smul_eq_mul]
  rw [hmapl, n_iter_eq_ceil len v.output_size h1 h0]
  have hdm := Nat.div_add_mod (len - 1) v.output_size
  have hml : (len - 1) % v.output_size < v.output_size := Nat.mod_lt _ h0
  have hle : len ≤ (1 + (len - 1) / v.output_size) * v.output_size := by
    rw [Nat.add_mul, Nat.one_mul, Nat.mul_comm]
    omega
  omega

/-- A concrete all-zero digest family, used to instantiate theorems on
closed inputs. -/
def hashZero : HashFam := fun v _ => List.replicate v.output_size 0

/-- A concrete squeeze function, used to instantiate theorems on closed
inputs. -/
def squeezeZero : SqueezeFun := fun _ n => List.replicate n 0

/-! Claim theorems. -/

/-- C2: for every hash family, prk, info, variant and length with
1 ≤ length ≤ 255 * hLen, `Hkdf::expand` computes exactly the RFC 5869
iteration — block 0 empty, block i (1-indexed, up to ceil(length/hLen))
equal to HMAC(key = prk, message = block (i-1) ++ info ++ [i]) — and
returns the concatenated blocks truncated to exactly `length` bytes. -/
theorem hkdf_expand_matches_rfc_blocks (hash : HashFam) (c : Hkdf) (prk : List Nat)
    (h1 : 1 ≤ c.length) (h2 : c.length ≤ 255 * c.hmac.output_size) :
    c.expand hash prk = some (Except.ok (hkdfOkmSpec hash c.hmac prk c.info c.length)) :=
  expand_eq_spec hash c prk h1 h2

/-- Witness for C2 at a concrete parameter set. -/
theorem hkdf_expand_matches_rfc_blocks_witness :
    1 ≤ (Hkdf.mk [] [] [7] 100 .SHA256).length
    ∧ (Hkdf.mk [] [] [7] 100 .SHA256).length ≤
        255 * (Hkdf.mk [] [] [7] 100 .SHA256).hmac.output_size
    ∧ (Hkdf.mk [] [] [7] 100 .SHA256).expand hashZero [9] =
        some (Except.ok (hkdfOkmSpec hashZero ShaVariantOption.SHA256 [9] [7] 100)) :=
  ⟨by decide, by decide,
    hkdf_expand_matches_rfc_blocks hashZero (Hkdf.mk [] [] [7] 100 .SHA256) [9]
      (by decide) (by decide)⟩

/-- C3: `Hkdf::expand` fails with the generic error exactly when
length < 1 or length > 255 * hLen, the `max_okmlen` table being exactly
255 * hLen (8160, 12240, 16320 bytes); for every length inside the bound
it succeeds and the okm is exactly `length` bytes long (given digests of
the documented output size). -/
theorem hkdf_expand_length_contract (hash : HashFam) (c : Hkdf) (prk : List Nat)
    (hlen : ∀ v m, (hash v m).length = ShaVariantOption.output_size v) :
    c.max_okmlen = some (255 * c.hmac.output_size)
    ∧ (c.expand hash prk = some (Except.error ()) ↔
        c.length < 1 ∨ 255 * c.hmac.output_size < c.length)
    ∧ (1 ≤ c.length → c.length ≤ 255 * c.hmac.output_size →
        ∃ okm, c.expand hash prk = some (Except.ok okm) ∧ okm.length = c.length) := by
  refine ⟨max_okmlen_eq c, ?_, ?_⟩
  · by_cases ha : 255 * c.hmac.output_size < c.length
    · rw [Hkdf.expand, max_okmlen_eq]
      simp [ha]
    · by_cases hb : c.length < 1
      · rw [Hkdf.expand, max_okmlen_eq]
        simp [ha, hb]
      · rw [expand_eq_spec hash c prk (by omega) (by omega)]
        simp [ha, hb]
  · intro h1 h2
    exact ⟨hkdfOkmSpec hash c.hmac prk c.info c.length,
      expand_eq_spec hash c prk h1 h2,
      okmSpec_length hash hlen c.hmac prk c.info c.length h1⟩

/-- Witness for C3: at a concrete parameter set the success branch
produces exactly 42 bytes. -/
theorem hkdf_expand_length_contract_witness :
    ∃ okm, (Hkdf.mk [] [] [] 42 .SHA256).expand hashZero [] = some (Except.ok okm)
      ∧ okm.length = (Hkdf.mk [] [] [] 42 .SHA256).length :=
  (hkdf_expand_length_contract hashZero (Hkdf.mk [] [] [] 42 .SHA256) []
    (fun _ _ => List.length_replicate _ _)).2.2 (by decide) (by decide)

/-- C4: `Hkdf::extract` is HMAC with the salt in the secret-key slot and
the ikm in the message slot — spelled out, the salt receives the HMAC
key treatment (block-size padding and the two pad constants) and the ikm
is appended as the inner message — and `Hkdf::derive_key` is `expand`
applied to `extract(salt, ikm)`. -/
theorem hkdf_extract_is_hmac_and_derive_key_composes (hash : HashFam) (c : Hkdf)
    (salt ikm : List Nat) :
    c.extract hash salt ikm = hmacOf hash c.hmac salt ikm
    ∧ c.extract hash salt ikm =
        hash c.hmac ((padKey hash c.hmac salt).map (fun b => b ^^^ 0x5c) ++
          hash c.hmac ((padKey hash c.hmac salt).map (fun b => b ^^^ 0x36) ++ ikm))
    ∧ c.derive_key hash = c.expand hash (c.extract hash c.salt c.ikm) :=
  ⟨rfl, rfl, rfl⟩

/-- C1: contrary to the claim, `Hkdf::verify` and `CShake::verify` panic
(modelled as `none`) on caller-supplied invalid parameters, because they
call `.unwrap()` on the recomputation: an HKDF record with the
out-of-range output length 0 and a cSHAKE record with `name` and
`custom` both empty drive `verify` into the panic, not into a typed
error value. -/
theorem verify_panics_on_invalid_params :
    (Hkdf.mk [] (List.replicate 22 11) [] 0 ShaVariantOption.SHA256).verify hashZero [] = none
    ∧ (CShake.mk [1, 2, 3] [] [] 32 KeccakVariantOption.KECCAK256).verify squeezeZero [] = none :=
  ⟨rfl, rfl⟩

/-- C8: `compare_ct` fails whenever the lengths differ; on equal lengths
it returns Ok(true) exactly when the contents are equal and fails
otherwise; it never returns Ok(false). -/
theorem compare_ct_contract (a b : List Nat) :
    (a.length ≠ b.length → compare_ct a b = Except.error ())
    ∧ (a.length = b.length → (compare_ct a b = Except.ok true ↔ a = b))
    ∧ compare_ct a b ≠ Except.ok false := by
  refine ⟨?_, ?_, ?_⟩
  · intro h
    simp [compare_ct, h]
  · intro h
    by_cases he : a = b
    · simp [compare_ct, constant_time_eq, he]
    · simp [compare_ct, constant_time_eq, h, he]
  · rw [compare_ct]
    split
    · simp
    · rw [constant_time_eq]
      split <;> simp

/-- Witness for C8 at concrete slices: unequal lengths fail, equal
slices succeed, equal-length unequal slices fail. -/
theorem compare_ct_contract_witness :
    compare_ct [0] [0, 1] = Except.error ()
    ∧ compare_ct [1, 2] [1, 2] = Except.ok true
    ∧ compare_ct [1, 2] [1, 3] ≠ Except.ok true :=
  ⟨(compare_ct_contract [0] [0, 1]).1 (by decide),
   ((compare_ct_contract [1, 2] [1, 2]).2.1 rfl).mpr rfl,
   fun h => by simpa using ((compare_ct_contract [1, 2] [1, 3]).2.1 rfl).mp h⟩

/-- C9: the drop implementations overwrite every secret buffer with zero
bytes of the same length — `salt`, `ikm`, `info` for `Hkdf`; `input`,
`custom` for `CShake` — and `Hkdf::derive_key` leaves the intermediate
prk buffer all-zero on both the success and the error path of `expand`
(the traced result being the value `derive_key` returns). -/
theorem secret_buffers_zeroized (hash : HashFam) (c : Hkdf) (d : CShake) :
    (c.dropZeroize).salt.all (fun b => b == 0) = true
    ∧ (c.dropZeroize).salt.length = c.salt.length
    ∧ (c.dropZeroize).ikm.all (fun b => b == 0) = true
    ∧ (c.dropZeroize).ikm.length = c.ikm.length
    ∧ (c.dropZeroize).info.all (fun b => b == 0) = true
    ∧ (c.dropZeroize).info.length = c.info.length
    ∧ (d.dropZeroize).input.all (fun b => b == 0) = true
    ∧ (d.dropZeroize).input.length = d.input.length
    ∧ (d.dropZeroize).custom.all (fun b => b == 0) = true
    ∧ (d.dropZeroize).custom.length = d.custom.length
    ∧ (c.derive_key_traced hash).2.all (fun b => b == 0) = true
    ∧ (c.derive_key_traced hash).2.length = (c.extract hash c.salt c.ikm).length
    ∧ (c.derive_key_traced hash).1 = c.derive_key hash := by
  refine ⟨?_, ?_, ?_, ?_, ?_, ?_, ?_, ?_, ?_, ?_, ?_, ?_, rfl⟩ <;>
    simp [Hkdf.dropZeroize, CShake.dropZeroize, Hkdf.derive_key_traced, clearBuf,
      List.all_eq_true, List.mem_replicate]

/-- C10: `CShake::rate` returns 168 bytes for the variant named 256 and
136 bytes for the variant named 512, and `keccak_init` builds the sponge
with exactly that rate, the delimiter byte 0x04, and an empty absorbed
stream in both variants. -/
theorem cshake_rate_and_init (input name custom : List Nat) (len : Nat) :
    (CShake.mk input name custom len KeccakVariantOption.KECCAK256).rate = 168
    ∧ (CShake.mk input name custom len KeccakVariantOption.KECCAK512).rate = 136
    ∧ ∀ k, (CShake.mk input name custom len k).keccak_init =
        Keccak.mk (CShake.mk input name custom len k).rate 0x04 [] := by
  refine ⟨rfl, rfl, ?_⟩
  intro k
  cases k <;> rfl

/-- C6: `CShake::finalize` fails exactly when `name` and `custom` are
both empty, or the length is 0 or above 65536, or `name` or `custom`
exceeds 65536 bytes; every other input succeeds. -/
theorem cshake_finalize_guards (squeeze : SqueezeFun) (c : CShake) :
    (c.finalize squeeze = Except.error () ↔
      (c.name = [] ∧ c.custom = []) ∨ c.length = 0 ∨ 65536 < c.length
        ∨ 65536 < c.name.length ∨ 65536 < c.custom.length)
    ∧ (¬((c.name = [] ∧ c.custom = []) ∨ c.length = 0 ∨ 65536 < c.length
        ∨ 65536 < c.name.length ∨ 65536 < c.custom.length) →
        ∃ out, c.finalize squeeze = Except.ok out) := by
  constructor
  · rw [CShake.finalize]
    split_ifs with h1 h2 h3
    · simp [h1]
    · simp only [iff_true_left]
      tauto
    · simp only [iff_true_left]
      tauto
    · simp only [reduceCtorEq, false_iff]
      tauto
  · intro h
    rw [CShake.finalize]
    split_ifs with h1 h2 h3
    · tauto
    · tauto
    · tauto
    · exact ⟨_, rfl⟩

/-- Witness for C6: a length-65536 call with exactly one of name and
custom empty succeeds; an empty name and custom pair fails. -/
theorem cshake_finalize_guards_witness :
    (∃ out, (CShake.mk [1] [] [2] 65536 KeccakVariantOption.KECCAK256).finalize squeezeZero =
      Except.ok out)
    ∧ (CShake.mk [1] [] [] 32 KeccakVariantOption.KECCAK256).finalize squeezeZero =
        Except.error () :=
  ⟨(cshake_finalize_guards squeezeZero (CShake.mk [1] [] [2] 65536 .KECCAK256)).2 (by decide),
   (cshake_finalize_guards squeezeZero (CShake.mk [1] [] [] 32 .KECCAK256)).1.mpr (by decide)⟩

/-- C7: for every valid cSHAKE parameter set, finalize hands the sponge
exactly the byte stream `left_encode(rate) ++ left_encode(8*|name|) ++
name ++ left_encode(8*|custom|) ++ custom`, zero-padded to a full
rate-sized block, followed by the input verbatim, and returns the
pad-permute-squeeze of the sponge of that state at exactly `length`
bytes. -/
theorem cshake_finalize_absorb_order (squeeze : SqueezeFun) (c : CShake)
    (h1 : ¬(c.name = [] ∧ c.custom = []))
    (h2 : c.length ≠ 0) (h3 : c.length ≤ 65536)
    (h4 : c.name.length ≤ 65536) (h5 : c.custom.length ≤ 65536)
    (hsq : ∀ s n, (squeeze s n).length = n) :
    c.finalize squeeze =
      Except.ok (squeeze (Keccak.mk c.rate 0x04 (cshakeAbsorbedSpec c)) c.length)
    ∧ ∀ out, c.finalize squeeze = Except.ok out → out.length = c.length := by
  have hpow : (2 : Nat) ^ 64 = 18446744073709551616 := by norm_num
  have hinit : c.keccak_init = Keccak.mk c.rate 0x04 [] := by
    cases hk : c.keccak <;> simp [CShake.keccak_init, Keccak.new, hk]
  have hn8 : c.name.length * 8 % 2 ^ 64 = 8 * c.name.length := by
    rw [Nat.mod_eq_of_lt (by omega)]
    ring
  have hc8 : c.custom.length * 8 % 2 ^ 64 = 8 * c.custom.length := by
    rw [Nat.mod_eq_of_lt (by omega)]
    ring
  have hmain : c.finalize squeeze =
      Except.ok (squeeze (Keccak.mk c.rate 0x04 (cshakeAbsorbedSpec c)) c.length) := by
    rw [CShake.finalize, if_neg h1, if_neg (by omega), if_neg (by omega)]
    simp only [hinit, CShake.keccak_finalize, Keccak.update, Keccak.fill_block,
      List.nil_append, hn8, hc8, cshakeAbsorbedSpec]
  refine ⟨hmain, ?_⟩
  intro out hout
  rw [hmain] at hout
  cases hout
  exact hsq _ _

/-- Witness for C7 at a concrete parameter set. -/
theorem cshake_finalize_absorb_order_witness :
    (CShake.mk [9] [] [5] 17 KeccakVariantOption.KECCAK256).finalize squeezeZero =
      Except.ok (squeezeZero
        (Keccak.mk (CShake.mk [9] [] [5] 17 KeccakVariantOption.KECCAK256).rate 0x04
          (cshakeAbsorbedSpec (CShake.mk [9] [] [5] 17 KeccakVariantOption.KECCAK256)))
        (CShake.mk [9] [] [5] 17 KeccakVariantOption.KECCAK256).length) :=
  (cshake_finalize_absorb_order squeezeZero (CShake.mk [9] [] [5] 17 .KECCAK256)
    (by decide) (by decide) (by decide) (by decide) (by decide)
    (fun _ _ => List.length_replicate _ _)).1

theorem leadingZeros_le (l : List Nat) : leadingZeros l ≤ l.length := by
  induction l with
  | nil => simp [leadingZeros]
  | cons b rest ih =>
      by_cases hb : b = 0
      · simp [leadingZeros, hb]
        omega
      · simp [leadingZeros, hb]

theorem beVal_drop_leadingZeros (l : List Nat) :
    beVal (l.drop (leadingZeros l)) = beVal l := by
  induction l with
  | nil => rfl
  | cons b rest ih =>
      by_cases hb : b = 0
      · subst hb
        rw [leadingZeros, if_pos rfl, List.drop_succ_cons, ih]
        simp [beVal]
      · rw [leadingZeros, if_neg hb, List.drop_zero]

theorem head_drop_leadingZeros (l : List Nat) (h : leadingZeros l < l.length) :
    ∃ b rest, l.drop (leadingZeros l) = b :: rest ∧ b ≠ 0 := by
  induction l with
  | nil => simp at h
  | cons b rest ih =>
      by_cases hb : b = 0
      · subst hb
        rw [leadingZeros, if_pos rfl] at h ⊢
        rw [List.drop_succ_cons]
        exact ih (by simpa using h)
      · rw [leadingZeros, if_neg hb, List.drop_zero]
        exact ⟨b, rest, rfl, hb⟩

theorem leadingZeros_lt_of_beVal_ne (l : List Nat) (h : beVal l ≠ 0) :
    leadingZeros l < l.length := by
  rcases Nat.lt_or_ge (leadingZeros l) l.length with hlt | hge
  · exact hlt
  · exfalso
    have heq : leadingZeros l = l.length := le_antisymm (leadingZeros_le l) hge
    have hb := beVal_drop_leadingZeros l
    rw [heq, List.drop_length] at hb
    exact h (by rw [← hb]; rfl)

theorem drop_set_cons (l : List Nat) (k v : Nat) (h : k < l.length) :
    (l.set k v).drop k = v :: l.drop (k + 1) := by
  induction l generalizing k with
  | nil => simp at h
  | cons a rest ih =>
      cases k with
      | zero => rfl
      | succ n =>
          rw [List.set_cons_succ, List.drop_succ_cons, List.drop_succ_cons]
          exact ih n (by simpa using h)

theorem writeU64BE_lt (x : Nat) : ∀ b ∈ writeU64BE x, b < 256 := by
  intro b hb
  simp only [writeU64BE, List.mem_cons, List.not_mem_nil, or_false] at hb
  rcases hb with h | h | h | h | h | h | h | h <;> omega

theorem beVal_writeU64BE (x : Nat) : beVal (writeU64BE x) = x % 2 ^ 64 := by
  simp only [beVal, writeU64BE, List.foldl]
  norm_num
  omega

theorem leadingZeros_cons_zero (w : List Nat) :
    leadingZeros (0 :: w) = leadingZeros w + 1 := by
  simp [leadingZeros]

theorem left_encode_of_ne (x : Nat) (hx0 : x ≠ 0) :
    left_encode x =
      ((0 :: writeU64BE x).set (leadingZeros (0 :: writeU64BE x) - 1)
          (9 - leadingZeros (0 :: writeU64BE x))).drop
        (leadingZeros (0 :: writeU64BE x) - 1) := by
  rw [left_encode]
  simp [hx0]

/-- C5 counterexample: at x = 32 the byte count leads the encoding; the
layout the claim states:, the minimal representation followed by a final
count byte, does not hold. -/
theorem left_encode_count_byte_not_trailing :
    IsMinimalBE 32 [32] ∧ left_encode 32 ≠ [32] ++ [([32] : List Nat).length] := by
  exact ⟨by decide, by decide⟩

/-- C5 (amended): for every u64 value, left_encode emits a leading byte
holding the count of the bytes of the minimal big-endian representation
(zero encoding as the single byte 0x00), followed by that
representation; in particular the four listed encodings hold. -/
theorem left_encode_minimal_prefixed :
    (∀ x, x < 2 ^ 64 → ∃ l, IsMinimalBE x l ∧ left_encode x = l.length :: l)
    ∧ left_encode 0 = [1, 0] ∧ left_encode 32 = [1, 32] ∧ left_encode 255 = [1, 255]
    ∧ left_encode (2 ^ 64 - 1) = [8, 255, 255, 255, 255, 255, 255, 255, 255] := by
  refine ⟨?_, by decide, by decide, by decide, by decide⟩
  intro x hx
  by_cases hx0 : x = 0
  · subst hx0
    exact ⟨[0], by decide, by decide⟩
  · have hbv : beVal (writeU64BE x) = x := by
      rw [beVal_writeU64BE, Nat.mod_eq_of_lt hx]
    have hz : leadingZeros (writeU64BE x) < (writeU64BE x).length :=
      leadingZeros_lt_of_beVal_ne _ (by rw [hbv]; exact hx0)
    have hwlen : (writeU64BE x).length = 8 := by rw [writeU64BE]; rfl
    refine ⟨(writeU64BE x).drop (leadingZeros (writeU64BE x)), ⟨?_, ?_, ?_⟩, ?_⟩
    · intro b hb
      exact writeU64BE_lt x b (List.mem_of_mem_drop hb)
    · rw [beVal_drop_leadingZeros, hbv]
    · rw [if_neg hx0]
      rcases head_drop_leadingZeros _ hz with ⟨b, rest, hdrop, hb⟩
      rw [hdrop]
      exact ⟨by simp, by simp [hb]⟩
    · rw [left_encode_of_ne x hx0, leadingZeros_cons_zero, Nat.add_sub_cancel]
      rw [drop_set_cons _ _ _ (by simp; omega), List.drop_succ_cons]
      rw [List.length_drop, hwlen]
      congr 1
      omega

/-- Witness for C5 at the concrete value 32. -/
theorem left_encode_minimal_prefixed_witness :
    ∃ l, IsMinimalBE 32 l ∧ left_encode 32 = l.length :: l :=
  left_encode_minimal_prefixed.1 32 (by norm_num)

end Orion
